import Mathlib

/-!
Shallow embedding of `src/tolvera/vera/fractal.py` (the `Fractal` vera: a
time-animated Julia-set field written into a `Pixels` RGBA buffer), together
with theorems settling the specification's claims about it.

Machine floats (`ti.f32`) are embedded as real numbers; the Taichi kernel's
parallel `ndrange` loop is embedded as a pointwise update of the buffer
function, which is faithful because every cell writes a disjoint location.
-/

namespace Tolvera

namespace Fractal

/-- RGBA color cell: `(r, g, b, a)`, each component a real number. -/
abbrev Color : Type := ℝ × ℝ × ℝ × ℝ

/-- Componentwise addition of two 2-vectors (`ti.Vector` addition). -/
def vadd (a b : ℝ × ℝ) : ℝ × ℝ := (a.1 + b.1, a.2 + b.2)

/-- `complex_sqr` from the source: `ti.Vector([z[0]**2 - z[1]**2, 2.0*z[0]*z[1]])`. -/
noncomputable def complex_sqr (z : ℝ × ℝ) : ℝ × ℝ :=
  (z.1 ^ 2 - z.2 ^ 2, 2.0 * z.1 * z.2)

/-- `z.norm()`: the Euclidean norm of a 2-vector. -/
noncomputable def vnorm (z : ℝ × ℝ) : ℝ := Real.sqrt (z.1 ^ 2 + z.2 ^ 2)

/-- The complex parameter of `draw`: `c = ti.Vector([-0.8, ti.cos(t) * 0.2])`. -/
noncomputable def cParam (t : ℝ) : ℝ × ℝ := (-0.8, Real.cos t * 0.2)

/-- The `while` loop of `draw`:
`while z.norm() < 20 and iterations < 50: z = complex_sqr(z) + c; iterations += 1`,
returning the final `iterations`. `fuel` bounds the recursion; run with
`fuel = 50 - iterations` it never cuts the loop short, since the loop guard
itself stops at 50 iterations (`loopAux_eq_specCount` validates this). -/
noncomputable def loopAux (c : ℝ × ℝ) : ℕ → ℝ × ℝ → ℕ → ℕ
  | 0, _, iterations => iterations
  | fuel + 1, z, iterations =>
    if vnorm z < 20 ∧ iterations < 50 then
      loopAux c fuel (vadd (complex_sqr z) c) (iterations + 1)
    else iterations

/-- Per-cell iteration count computed by the body of `draw` at cell `(i, j)` of a
`W × H` grid at time `t`: `uv = (i/W, j/H) * 2 - 1`, `z = uv * (1.5, 1.0)`,
then the escape loop with `c = cParam t` starting from `iterations = 0`. -/
noncomputable def cellIters (W H : ℕ) (t : ℝ) (i j : ℕ) : ℕ :=
  let uv : ℝ × ℝ := ((i : ℝ) / (W : ℝ) * 2 - 1, (j : ℝ) / (H : ℝ) * 2 - 1)
  let z : ℝ × ℝ := (uv.1 * 1.5, uv.2 * 1.0)
  loopAux (cParam t) 50 z 0

/-- Per-cell color written by `draw`:
`val = 1.0 - iterations * 0.02`; `rgba[i, j] = (val, 0.3*val, 0.8*val, 1.0)`. -/
noncomputable def cellColor (W H : ℕ) (t : ℝ) (i j : ℕ) : Color :=
  let val : ℝ := 1.0 - (cellIters W H t i j : ℝ) * 0.02
  (val, 0.3 * val, 0.8 * val, 1.0)

/-- The scalar state of a `Fractal` instance (`self.time[None]`, `self.speed[None]`)
together with the contents of its pixel buffer (`self.px.px.rgba`). The grid
dimensions `tv.x`, `tv.y` are passed to the operations that read them. -/
structure FractalState where
  time : ℝ
  speed : ℝ
  buf : ℕ → ℕ → Color

/-- The `draw` kernel: for every `(i, j)` in `ti.ndrange(tv.x, tv.y)` it writes
`cellColor` at the current time into the buffer; cells outside the grid keep
their previous contents. -/
noncomputable def draw (W H : ℕ) (s : FractalState) : FractalState :=
  { s with buf := fun i j =>
      if i < W ∧ j < H then cellColor W H s.time i j else s.buf i j }

/-- `set_speed`: overwrites the speed scalar, nothing else. -/
def set_speed (v : ℝ) (s : FractalState) : FractalState := { s with speed := v }

/-- `step`: `self.time[None] += self.speed[None]`, then `self.draw()`. -/
noncomputable def step (W H : ℕ) (s : FractalState) : FractalState :=
  draw W H { s with time := s.time + s.speed }

/-- `__init__`: `time = 0.0`, `speed = kwargs.get("speed", 0.03)`, and the fresh
`Pixels(self.tv)` buffer contents `b0` (the `Pixels` class is outside this
module; its initial contents are left abstract). -/
def init (speed0 : ℝ) (b0 : ℕ → ℕ → Color) : FractalState :=
  { time := 0, speed := speed0, buf := b0 }

/-- An externally issued operation on a `Fractal` instance. -/
inductive Op where
  | tick : Op
  | setSpeed : ℝ → Op

/-- Run a list of operations on a state: `Op.tick` is `step()`, `Op.setSpeed v`
is `set_speed(v)`. -/
noncomputable def run (W H : ℕ) (s : FractalState) : List Op → FractalState
  | [] => s
  | op :: ops =>
    run W H (match op with
      | Op.tick => step W H s
      | Op.setSpeed v => set_speed v s) ops

/-- A concrete initial buffer content used in witnesses. -/
def buf0 : ℕ → ℕ → Color := fun _ _ => (0, 0, 0, 0)

/-- Reference count from the spec's words: iterate `z ← z² + c` counting
iterations, until either `|z| ≥ 20` (escape) or the count reaches the cap
(the remaining budget `n` hits 0). -/
noncomputable def specCount (c : ℝ × ℝ) : ℝ × ℝ → ℕ → ℕ
  | _, 0 => 0
  | z, n + 1 =>
    if 20 ≤ vnorm z then 0 else specCount c (vadd (complex_sqr z) c) n + 1

/-- Reference per-cell evaluation from the spec's words: `u = 2*(i/W) - 1`,
`v = 2*(j/H) - 1`, `z0 = (u*1.5, v*1.0)`, `c = (-0.8, cos(t)*0.2)`, iterate
up to the cap of 50, `val = 1.0 - iterations*0.02`, color
`(val, 0.3*val, 0.8*val, 1.0)`. -/
noncomputable def specEvaluate (i j W H : ℕ) (t : ℝ) : Color :=
  let u : ℝ := 2 * ((i : ℝ) / (W : ℝ)) - 1
  let v : ℝ := 2 * ((j : ℝ) / (H : ℝ)) - 1
  let iters : ℕ := specCount (-0.8, Real.cos t * 0.2) (u * 1.5, v * 1.0) 50
  let val : ℝ := 1.0 - (iters : ℝ) * 0.02
  (val, 0.3 * val, 0.8 * val, 1.0)

/-- With remaining budget `n = 50 - iterations`, the fueled source loop agrees
with the spec's count-until-escape-or-cap recursion. -/
theorem loopAux_eq_specCount (c : ℝ × ℝ) :
    ∀ (n : ℕ) (z : ℝ × ℝ) (k : ℕ), k + n = 50 →
      loopAux c n z k = k + specCount c z n := by
  intro n
  induction n with
  | zero => intro z k _; simp [loopAux, specCount]
  | succ n ih =>
    intro z k hk
    have hk50 : k < 50 := by omega
    by_cases hz : vnorm z < 20
    · have h1 : loopAux c (n + 1) z k
          = loopAux c n (vadd (complex_sqr z) c) (k + 1) := by
        simp [loopAux, hz, hk50]
      have h2 : specCount c z (n + 1)
          = specCount c (vadd (complex_sqr z) c) n + 1 := by
        simp [specCount, not_le.mpr hz]
      rw [h1, h2, ih (vadd (complex_sqr z) c) (k + 1) (by omega)]
      omega
    · have h1 : loopAux c (n + 1) z k = k := by
        simp [loopAux, hz]
      have h2 : specCount c z (n + 1) = 0 := by
        simp [specCount, not_lt.mp hz]
      rw [h1, h2]
      omega

/-- The loop never decreases its iteration counter. -/
theorem le_loopAux (c : ℝ × ℝ) :
    ∀ (n : ℕ) (z : ℝ × ℝ) (k : ℕ), k ≤ loopAux c n z k := by
  intro n
  induction n with
  | zero => intro z k; simp [loopAux]
  | succ n ih =>
    intro z k
    by_cases h : vnorm z < 20 ∧ k < 50
    · have h1 : loopAux c (n + 1) z k
          = loopAux c n (vadd (complex_sqr z) c) (k + 1) := by
        simp [loopAux, h.1, h.2]
      rw [h1]
      exact le_trans (Nat.le_succ k) (ih _ (k + 1))
    · have h1 : loopAux c (n + 1) z k = k := by
        simp only [loopAux, if_neg h]
      rw [h1]

/-- Starting at or below the cap, the loop result stays at or below 50,
because the guard `iterations < 50` blocks any further increment. -/
theorem loopAux_le (c : ℝ × ℝ) :
    ∀ (n : ℕ) (z : ℝ × ℝ) (k : ℕ), k ≤ 50 → loopAux c n z k ≤ 50 := by
  intro n
  induction n with
  | zero => intro z k hk; simpa [loopAux] using hk
  | succ n ih =>
    intro z k hk
    by_cases h : vnorm z < 20 ∧ k < 50
    · have h1 : loopAux c (n + 1) z k
          = loopAux c n (vadd (complex_sqr z) c) (k + 1) := by
        simp [loopAux, h.1, h.2]
      rw [h1]
      exact ih _ (k + 1) (by omega)
    · have h1 : loopAux c (n + 1) z k = k := by
        simp only [loopAux, if_neg h]
      rw [h1]; exact hk

/-- Unfolding lemma for one pass of the source loop. -/
theorem loopAux_succ (c : ℝ × ℝ) (n : ℕ) (z : ℝ × ℝ) (k : ℕ) :
    loopAux c (n + 1) z k =
      if vnorm z < 20 ∧ k < 50 then
        loopAux c n (vadd (complex_sqr z) c) (k + 1)
      else k := rfl

/-- The iteration count of any cell is at most the cap of 50. -/
theorem cellIters_le (W H : ℕ) (t : ℝ) (i j : ℕ) : cellIters W H t i j ≤ 50 :=
  loopAux_le _ _ _ _ (by omega)

/-- The per-cell evaluation depends on the time only through its cosine. -/
theorem cellIters_congr_cos (W H : ℕ) {t u : ℝ} (h : Real.cos t = Real.cos u)
    (i j : ℕ) : cellIters W H t i j = cellIters W H u i j := by
  unfold cellIters cParam
  rw [h]

/-- The per-cell color depends on the time only through its cosine. -/
theorem cellColor_congr_cos (W H : ℕ) {t u : ℝ} (h : Real.cos t = Real.cos u)
    (i j : ℕ) : cellColor W H t i j = cellColor W H u i j := by
  unfold cellColor
  rw [cellIters_congr_cos W H h i j]

/-- `step` advances the time scalar by exactly the current speed. -/
theorem step_time (W H : ℕ) (s : FractalState) :
    (step W H s).time = s.time + s.speed := rfl

/-- `step` leaves the speed scalar unchanged. -/
theorem step_speed (W H : ℕ) (s : FractalState) :
    (step W H s).speed = s.speed := rfl

/-- `set_speed` leaves the time scalar unchanged. -/
theorem set_speed_time (v : ℝ) (s : FractalState) :
    (set_speed v s).time = s.time := rfl

/-- `set_speed` installs the new speed. -/
theorem set_speed_speed (v : ℝ) (s : FractalState) :
    (set_speed v s).speed = v := rfl

/-- In-range normalized coordinates lie in `[-1, 1)`. -/
theorem uv_bounds {i W : ℕ} (hi : i < W) :
    -1 ≤ (i : ℝ) / (W : ℝ) * 2 - 1 ∧ (i : ℝ) / (W : ℝ) * 2 - 1 < 1 := by
  have hW : (0 : ℝ) < (W : ℝ) := by
    have : 0 < W := by omega
    exact_mod_cast this
  have h0 : 0 ≤ (i : ℝ) / (W : ℝ) := div_nonneg (Nat.cast_nonneg i) hW.le
  have h1 : (i : ℝ) / (W : ℝ) < 1 := by
    rw [div_lt_one hW]
    exact_mod_cast hi
  constructor <;> nlinarith

/-- The starting point of the loop has norm below the escape threshold. -/
theorem vnorm_start_lt {u v : ℝ} (hu : -1 ≤ u) (hu1 : u < 1)
    (hv : -1 ≤ v) (hv1 : v < 1) : vnorm (u * 1.5, v * 1.0) < 20 := by
  unfold vnorm
  rw [Real.sqrt_lt' (by norm_num)]
  nlinarith

/-- For an in-range cell the loop body executes at least once. -/
theorem one_le_cellIters (W H : ℕ) (t : ℝ) {i j : ℕ}
    (hi : i < W) (hj : j < H) : 1 ≤ cellIters W H t i j := by
  have hu := uv_bounds hi
  have hv := uv_bounds hj
  have hz := vnorm_start_lt hu.1 hu.2 hv.1 hv.2
  unfold cellIters
  rw [show (50 : ℕ) = 49 + 1 by norm_num, loopAux_succ,
    if_pos ⟨hz, by omega⟩]
  exact le_loopAux _ _ _ _

/-- Unfolded form of the per-cell color. -/
theorem cellColor_eq (W H : ℕ) (t : ℝ) (i j : ℕ) :
    cellColor W H t i j =
      (1.0 - (cellIters W H t i j : ℝ) * 0.02,
       0.3 * (1.0 - (cellIters W H t i j : ℝ) * 0.02),
       0.8 * (1.0 - (cellIters W H t i j : ℝ) * 0.02), 1.0) := rfl

/-- The source's per-cell color coincides with the spec's reference evaluation,
for every cell index, grid size and time. -/
theorem cellColor_eq_specEvaluate (W H : ℕ) (t : ℝ) (i j : ℕ) :
    cellColor W H t i j = specEvaluate i j W H t := by
  have h := loopAux_eq_specCount (cParam t) 50
    (((i : ℝ) / (W : ℝ) * 2 - 1) * 1.5, ((j : ℝ) / (H : ℝ) * 2 - 1) * 1.0) 0
    (by norm_num)
  rw [zero_add] at h
  simp only [cParam] at h
  simp only [cellColor, cellIters, specEvaluate, cParam]
  rw [show (2 * ((i : ℝ) / (W : ℝ)) - 1) = (i : ℝ) / (W : ℝ) * 2 - 1 by ring,
      show (2 * ((j : ℝ) / (H : ℝ)) - 1) = (j : ℝ) / (H : ℝ) * 2 - 1 by ring, h]

/-- C1: for every in-range cell `(i, j)` and every time, the color written by
the `draw` kernel equals the spec's reference definition `specEvaluate`
(normalize, scale by (1.5, 1.0), iterate `z ← z² + c` with `c = (-0.8,
cos(t)*0.2)` until `|z| ≥ 20` or 50 iterations, `val = 1 - iterations*0.02`,
color `(val, 0.3*val, 0.8*val, 1.0)`). -/
theorem draw_cell_matches_spec (W H : ℕ) (s : FractalState) (i j : ℕ)
    (hi : i < W) (hj : j < H) :
    (draw W H s).buf i j = specEvaluate i j W H s.time := by
  have hbuf : (draw W H s).buf i j = cellColor W H s.time i j := by
    simp [draw, hi, hj]
  rw [hbuf, cellColor_eq_specEvaluate]

/-- Witness for C1 at grid 1×1, cell (0,0), a fresh instance. -/
theorem draw_cell_matches_spec_witness :
    (draw 1 1 (init 0.03 buf0)).buf 0 0
      = specEvaluate 0 0 1 1 (init 0.03 buf0).time :=
  draw_cell_matches_spec 1 1 (init 0.03 buf0) 0 0 (by decide) (by decide)

/-- C2: after `step()`, every in-range cell holds the per-cell color evaluated
at the updated time — a function only of the cell index, the grid dimensions
and the time scalar; nothing of the previous buffer contents survives. -/
theorem step_overwrites_every_cell (W H : ℕ) (s : FractalState) (i j : ℕ)
    (hi : i < W) (hj : j < H) :
    (step W H s).buf i j = cellColor W H ((step W H s).time) i j := by
  simp [step, draw, hi, hj]

/-- Witness for C2 at grid 1×1, cell (0,0), a fresh instance. -/
theorem step_overwrites_every_cell_witness :
    (step 1 1 (init 0.03 buf0)).buf 0 0
      = cellColor 1 1 ((step 1 1 (init 0.03 buf0)).time) 0 0 :=
  step_overwrites_every_cell 1 1 (init 0.03 buf0) 0 0 (by decide) (by decide)

/-- Time and speed after `n` iterated calls of `step()` on a fresh instance. -/
theorem iterate_step_time_speed (W H : ℕ) (s0 : ℝ) (b : ℕ → ℕ → Color) :
    ∀ n : ℕ, ((step W H)^[n] (init s0 b)).time = (n : ℝ) * s0 ∧
      ((step W H)^[n] (init s0 b)).speed = s0 := by
  intro n
  induction n with
  | zero => simp [init]
  | succ n ih =>
    constructor
    · rw [Function.iterate_succ_apply', step_time, ih.1, ih.2]
      push_cast
      ring
    · rw [Function.iterate_succ_apply', step_speed]
      exact ih.2

/-- C3: after `n` calls to `step()` starting from initial time 0 with speed
held at `s` and no intervening `set_speed`, the time scalar equals `n * s`. -/
theorem time_linear_in_steps (W H n : ℕ) (s : ℝ) (b : ℕ → ℕ → Color) :
    ((step W H)^[n] (init s b)).time = (n : ℝ) * s :=
  (iterate_step_time_speed W H s b n).1

/-- C7: the iteration count of every cell lies in [0, 50], and the brightness
channel `val = 1.0 - iterations * 0.02` lies in [0, 1]. -/
theorem iterations_and_val_bounded (W H : ℕ) (t : ℝ) (i j : ℕ) :
    0 ≤ cellIters W H t i j ∧ cellIters W H t i j ≤ 50 ∧
      (cellColor W H t i j).1 = 1.0 - (cellIters W H t i j : ℝ) * 0.02 ∧
      0 ≤ (cellColor W H t i j).1 ∧ (cellColor W H t i j).1 ≤ 1 := by
  have h50 : (cellIters W H t i j : ℝ) ≤ 50 := by
    exact_mod_cast cellIters_le W H t i j
  have h0 : (0 : ℝ) ≤ (cellIters W H t i j : ℝ) := Nat.cast_nonneg _
  refine ⟨Nat.zero_le _, cellIters_le W H t i j, rfl, ?_, ?_⟩
  · rw [cellColor_eq]
    show (0 : ℝ) ≤ 1.0 - (cellIters W H t i j : ℝ) * 0.02
    nlinarith
  · rw [cellColor_eq]
    show (1.0 : ℝ) - (cellIters W H t i j : ℝ) * 0.02 ≤ 1
    nlinarith

/-- C9: `step()` leaves the speed scalar unchanged, and `set_speed(v)` leaves
the time scalar and the entire color buffer unchanged. -/
theorem step_set_speed_frame (W H : ℕ) (v : ℝ) (s : FractalState) :
    (step W H s).speed = s.speed ∧ (set_speed v s).time = s.time ∧
      (set_speed v s).buf = s.buf :=
  ⟨rfl, rfl, rfl⟩

/-- C4 as stated is false on the code: from a fresh instance, `set_speed(-1)`
followed by one `step()` leaves the time scalar at -1, which is negative and
strictly below its previous value 0. -/
theorem time_can_go_negative :
    (run 1 1 (init 0.03 buf0) [Op.setSpeed (-1), Op.tick]).time < 0 ∧
      (run 1 1 (init 0.03 buf0) [Op.setSpeed (-1), Op.tick]).time
        < (run 1 1 (init 0.03 buf0) [Op.setSpeed (-1)]).time := by
  have h1 : (run 1 1 (init 0.03 buf0) [Op.setSpeed (-1), Op.tick]).time
      = 0 + (-1) := by
    simp [run, init, set_speed, step_time]
  have h2 : (run 1 1 (init 0.03 buf0) [Op.setSpeed (-1)]).time = 0 := by
    simp [run, init, set_speed]
  rw [h1, h2]
  norm_num

/-- When time and speed are nonnegative and every speed ever set along a trace
is nonnegative, the time and speed stay nonnegative. -/
theorem run_nonneg (W H : ℕ) :
    ∀ (ops : List Op) (s : FractalState), 0 ≤ s.time → 0 ≤ s.speed →
      (∀ v : ℝ, Op.setSpeed v ∈ ops → 0 ≤ v) →
      0 ≤ (run W H s ops).time ∧ 0 ≤ (run W H s ops).speed := by
  intro ops
  induction ops with
  | nil => intro s ht hs _; exact ⟨ht, hs⟩
  | cons op ops ih =>
    intro s ht hs hops
    cases op with
    | tick =>
      have hstep_t : 0 ≤ (step W H s).time := by
        rw [step_time]; exact add_nonneg ht hs
      have hstep_s : 0 ≤ (step W H s).speed := by
        rw [step_speed]; exact hs
      have key := ih (step W H s) hstep_t hstep_s
        (fun v hv => hops v (List.mem_cons_of_mem _ hv))
      simpa [run] using key
    | setSpeed v =>
      have hv : 0 ≤ v := hops v (List.mem_cons_self _ _)
      have key := ih (set_speed v s)
        (by rw [set_speed_time]; exact ht)
        (by rw [set_speed_speed]; exact hv)
        (fun w hw => hops w (List.mem_cons_of_mem _ hw))
      simpa [run] using key

/-- C4 amended: each `step()` changes the time by exactly the current speed, so
when the initial speed and every speed installed by `set_speed` along the
trace are nonnegative, every reachable state has nonnegative time and a
further `step()` never decreases it. -/
theorem time_nonneg_of_nonneg_speeds (W H : ℕ) (s0 : ℝ) (b : ℕ → ℕ → Color)
    (ops : List Op) (hs0 : 0 ≤ s0)
    (hops : ∀ v : ℝ, Op.setSpeed v ∈ ops → 0 ≤ v) :
    0 ≤ (run W H (init s0 b) ops).time ∧
      (run W H (init s0 b) ops).time
        ≤ (step W H (run W H (init s0 b) ops)).time := by
  have key := run_nonneg W H ops (init s0 b) (le_refl 0) hs0 hops
  refine ⟨key.1, ?_⟩
  rw [step_time]
  exact le_add_of_nonneg_right key.2

/-- Witness for the amended C4 on the one-step trace from a fresh instance. -/
theorem time_nonneg_of_nonneg_speeds_witness :
    (0 : ℝ) ≤ 0.03 ∧
      (0 ≤ (run 1 1 (init 0.03 buf0) [Op.tick]).time ∧
        (run 1 1 (init 0.03 buf0) [Op.tick]).time
          ≤ (step 1 1 (run 1 1 (init 0.03 buf0) [Op.tick])).time) :=
  ⟨by norm_num, time_nonneg_of_nonneg_speeds 1 1 0.03 buf0 [Op.tick]
    (by norm_num) (by intro v hv; simp at hv)⟩

/-- C5: the imaginary part of the complex parameter is 2π-periodic in time, and
two draws whose time values differ by exactly 2π write identical colors to
every in-range cell. -/
theorem buffer_periodic_two_pi (W H : ℕ) (s t : FractalState) (i j : ℕ)
    (ht : t.time = s.time + 2 * Real.pi) (hi : i < W) (hj : j < H) :
    (cParam t.time).2 = (cParam s.time).2 ∧
      (draw W H t).buf i j = (draw W H s).buf i j := by
  have hcos : Real.cos t.time = Real.cos s.time := by
    rw [ht, Real.cos_add_two_pi]
  constructor
  · simp [cParam, hcos]
  · have h1 : (draw W H t).buf i j = cellColor W H t.time i j := by
      simp [draw, hi, hj]
    have h2 : (draw W H s).buf i j = cellColor W H s.time i j := by
      simp [draw, hi, hj]
    rw [h1, h2]
    exact cellColor_congr_cos W H hcos i j

/-- Witness for C5 at grid 1×1, cell (0,0), times 0 and 2π. -/
theorem buffer_periodic_two_pi_witness :
    (cParam (FractalState.mk (2 * Real.pi) 0.03 buf0).time).2
        = (cParam (init 0.03 buf0).time).2 ∧
      (draw 1 1 (FractalState.mk (2 * Real.pi) 0.03 buf0)).buf 0 0
        = (draw 1 1 (init 0.03 buf0)).buf 0 0 :=
  buffer_periodic_two_pi 1 1 (init 0.03 buf0)
    (FractalState.mk (2 * Real.pi) 0.03 buf0) 0 0 (by simp [init])
    (by decide) (by decide)

/-- C6: the buffer drawn at time -t equals the buffer drawn at time t on every
in-range cell, whatever the rest of the two states, because the per-cell
evaluation depends on the time only through its cosine, an even function. -/
theorem buffer_even_in_time (W H : ℕ) (t v w : ℝ) (b b2 : ℕ → ℕ → Color)
    (i j : ℕ) (hi : i < W) (hj : j < H) :
    (draw W H (FractalState.mk (-t) v b)).buf i j
      = (draw W H (FractalState.mk t w b2)).buf i j := by
  have hcos : Real.cos (-t) = Real.cos t := Real.cos_neg t
  have h1 : (draw W H (FractalState.mk (-t) v b)).buf i j
      = cellColor W H (-t) i j := by
    simp [draw, hi, hj]
  have h2 : (draw W H (FractalState.mk t w b2)).buf i j
      = cellColor W H t i j := by
    simp [draw, hi, hj]
  rw [h1, h2]
  exact cellColor_congr_cos W H hcos i j

/-- Witness for C6: the `setSpeed(-0.03)` scenario, time -0.03 against 0.03. -/
theorem buffer_even_in_time_witness :
    (draw 1 1 (FractalState.mk (-(0.03 : ℝ)) 0.03 buf0)).buf 0 0
      = (draw 1 1 (FractalState.mk (0.03 : ℝ) 0.03 buf0)).buf 0 0 :=
  buffer_even_in_time 1 1 0.03 0.03 0.03 buf0 buf0 0 0 (by decide) (by decide)

/-- C10: for every in-range cell, the starting point is inside the escape
radius, so the loop body runs at least once: the iteration count is at least
1, the brightness is at most 0.98, and the red, green and blue channels are
all strictly below 1; only the alpha channel is 1. -/
theorem in_range_cell_escapes (W H : ℕ) (t : ℝ) (i j : ℕ)
    (hi : i < W) (hj : j < H) :
    1 ≤ cellIters W H t i j ∧ (cellColor W H t i j).1 ≤ 0.98 ∧
      (cellColor W H t i j).1 < 1 ∧ (cellColor W H t i j).2.1 < 1 ∧
      (cellColor W H t i j).2.2.1 < 1 ∧ (cellColor W H t i j).2.2.2 = 1.0 := by
  have h1 := one_le_cellIters W H t hi hj
  have h1R : (1 : ℝ) ≤ (cellIters W H t i j : ℝ) := by exact_mod_cast h1
  have h50 : (cellIters W H t i j : ℝ) ≤ 50 := by
    exact_mod_cast cellIters_le W H t i j
  refine ⟨h1, ?_, ?_, ?_, ?_, rfl⟩
  · rw [cellColor_eq]
    show (1.0 : ℝ) - (cellIters W H t i j : ℝ) * 0.02 ≤ 0.98
    nlinarith
  · rw [cellColor_eq]
    show (1.0 : ℝ) - (cellIters W H t i j : ℝ) * 0.02 < 1
    nlinarith
  · rw [cellColor_eq]
    show (0.3 : ℝ) * (1.0 - (cellIters W H t i j : ℝ) * 0.02) < 1
    nlinarith
  · rw [cellColor_eq]
    show (0.8 : ℝ) * (1.0 - (cellIters W H t i j : ℝ) * 0.02) < 1
    nlinarith

/-- Witness for C10 at grid 1×1, cell (0,0), time 0. -/
theorem in_range_cell_escapes_witness :
    1 ≤ cellIters 1 1 0 0 0 ∧ (cellColor 1 1 0 0 0).1 ≤ 0.98 ∧
      (cellColor 1 1 0 0 0).1 < 1 ∧ (cellColor 1 1 0 0 0).2.1 < 1 ∧
      (cellColor 1 1 0 0 0).2.2.1 < 1 ∧ (cellColor 1 1 0 0 0).2.2.2 = 1.0 :=
  in_range_cell_escapes 1 1 0 0 0 (by decide) (by decide)
